import Mathlib

/-!
Verification of the resource-graph executor and inheritance logic of the
k8s-cloud-provider rgraph engine.  The executable definitions below embed:

* `pkg/cloud/rgraph/exec/executor_parallel.go` (Run, RunWithoutConfigTimeout,
  runAction, queueRunnableActions, signal, addActionResult);
* `pkg/cloud/api/inherit.go` (Inherit, pathsToInherited, inherit, inheritPath,
  setValue);
* the target-http-proxy `builder.Build`;
together with spec-modelled components whose sources are absent from the
repository snapshot (serial executor, parallel queue, action semantics, path
resolution, field-trait tables).
-/

/-- Events are plain string values (typed strings in tests, per the spec). -/
abbrev Event := String

/-- Modelled from the spec: the `Action` interface and the test action type
(`testAction`) are absent from the snapshot (only their uses in
`executor_serial_test.go` and the parallel executor are present).  Per spec
section 4.H an action carries metadata (its name), `Want` events it waits for,
the set of events already received, the events it `Emits` on success, and per
the test DSL a flag (`!X`) marking actions whose `Run` returns an error. -/
structure TestAction where
  name : String
  want : List Event
  received : List Event
  emits : List Event
  fails : Bool
deriving DecidableEq, Repr

/-- Modelled from the spec: `CanRun` is `forall w in Want : received(w)`
(spec section 4.G); the `Action` source is absent from the snapshot. -/
def canRun (a : TestAction) : Bool :=
  a.want.all (fun e => a.received.contains e)

/-- Modelled from the spec: `Signal(e)` records `e` idempotently and returns
true iff `e` was in `want` and not already received (spec section 4.H); the
`Action` source is absent from the snapshot. -/
def signalEvent (a : TestAction) (ev : Event) : TestAction :=
  if a.want.contains ev ∧ ¬ a.received.contains ev then
    { a with received := a.received ++ [ev] }
  else a

/-- Delivery of a batch of events to the pending actions, mirroring
`parallelExecutor.signal`: the outer loop ranges over `result.Pending`, the
inner loop over the emitted events. -/
def signalEvents (evs : List Event) (pending : List TestAction) : List TestAction :=
  pending.map (fun a => evs.foldl signalEvent a)

/-- Error strategies from the executor configuration. -/
inductive ErrorStrategy where
  | stopOnError
  | continueOnError
deriving DecidableEq, Repr

/-- `Result` from the exec package: completed actions, errored actions
(`ActionWithErr`, keeping the action), and pending actions. -/
structure ExecResult where
  completed : List TestAction
  errors : List TestAction
  pending : List TestAction
deriving DecidableEq, Repr

/-- State of the parallel executor: the guarded `Result` plus the queue of the
`ParallelQueue` (actions handed to `pq.Add`, in order). -/
structure PState where
  result : ExecResult
  queue : List TestAction
deriving DecidableEq, Repr

/-- `parallelExecutor.queueRunnableActions`: move every `CanRun` action from
`result.Pending` into the queue (in order); `result.Pending` is overwritten
with the non-runnable remainder only when at least one action was queued
(`taskWasRun` in the source). -/
def queueRunnableActions (st : PState) : PState :=
  let runnable := st.result.pending.filter (fun a => canRun a)
  let notRunnable := st.result.pending.filter (fun a => ¬ canRun a)
  if runnable.isEmpty then st
  else { result := { st.result with pending := notRunnable },
         queue := st.queue ++ runnable }

/-- `parallelExecutor.addActionResult`: append to `Completed` on success and to
`Errors` on failure. -/
def addActionResult (st : PState) (a : TestAction) (runErr : Bool) : PState :=
  if runErr then
    { st with result := { st.result with errors := st.result.errors ++ [a] } }
  else
    { st with result := { st.result with completed := st.result.completed ++ [a] } }

/-- Modelled from the spec: `testAction.Run` (absent from the snapshot) returns
the action's declared events together with an error exactly when the action is
marked failing in the test graph DSL (`!X`). -/
def testActionRun (a : TestAction) : List Event × Bool :=
  (a.emits, a.fails)

/-- `parallelExecutor.runAction`: run the action, record the outcome, return an
error (stopping the queue) on failure under `StopOnError`; deliver the emitted
events via `signal` only when `Run` succeeded; finally re-queue runnable
actions.  The returned flag is the non-nil error handed back to the queue. -/
def runActionStep (strategy : ErrorStrategy) (st : PState) (a : TestAction) :
    PState × Bool :=
  let res := testActionRun a
  let st1 := addActionResult st a res.2
  if res.2 then
    if strategy = ErrorStrategy.stopOnError then (st1, true)
    else (queueRunnableActions st1, false)
  else
    let st2 := { st1 with
      result := { st1.result with pending := signalEvents res.1 st1.result.pending } }
    (queueRunnableActions st2, false)

/-- Modelled from the spec: the `algo.ParallelQueue` source is absent from the
snapshot.  Spec section 4.I: workers take queued tasks and call the worker
function; a non-nil worker error terminates the run, a drained queue ends it
normally.  This is the single-worker linearization of the pool (faithful to
the lock discipline of the executor); the fuel argument bounds the loop. -/
def pqRun (strategy : ErrorStrategy) : Nat → PState → PState × Bool
  | 0, st => (st, false)
  | fuel + 1, st =>
    match st.queue with
    | [] => (st, false)
    | a :: rest =>
      let stepped := runActionStep strategy { st with queue := rest } a
      if stepped.2 then (stepped.1, true)
      else pqRun strategy fuel stepped.1

/-- Return value of the executor `Run` functions. -/
inductive RunError where
  | none
  | errPendingActions
  | waitForOrphansWrapped (msg : String)
deriving DecidableEq, Repr

/-- The tail of `parallelExecutor.Run` (lines 84-95): if the queue returned an
error, `WaitForOrphans` runs and a non-nil wait error is returned wrapped;
otherwise `ErrPendingActions` is returned iff `Errors` or `Pending` is
non-empty. -/
def runReturn (queueErr : Bool) (waitErr : Option String) (res : ExecResult) :
    RunError :=
  if queueErr then
    match waitErr with
    | some w => RunError.waitForOrphansWrapped w
    | Option.none =>
      if res.errors ≠ [] ∨ res.pending ≠ [] then RunError.errPendingActions
      else RunError.none
  else
    if res.errors ≠ [] ∨ res.pending ≠ [] then RunError.errPendingActions
    else RunError.none

/-- `parallelExecutor.Run`: queue the runnable actions, drive the queue, then
apply `runReturn`.  In the single-worker linearization no orphan worker is ever
left behind, so `WaitForOrphans` returns nil. -/
def parallelRun (strategy : ErrorStrategy) (fuel : Nat)
    (actions : List TestAction) : ExecResult × RunError :=
  let st0 : PState := { result := { completed := [], errors := [], pending := actions },
                        queue := [] }
  let st1 := queueRunnableActions st0
  let res := pqRun strategy fuel st1
  (res.1.result, runReturn res.2 Option.none res.1.result)

/-- State of the serial executor. -/
structure SState where
  pending : List TestAction
  completed : List TestAction
  errors : List TestAction
deriving DecidableEq, Repr

/-- Extract the first action of the list satisfying `canRun`, returning it with
the remaining actions in stable order. -/
def extractFirstRunnable : List TestAction → Option (TestAction × List TestAction)
  | [] => Option.none
  | a :: rest =>
    if canRun a then some (a, rest)
    else match extractFirstRunnable rest with
      | some (b, l) => some (b, a :: l)
      | Option.none => Option.none

/-- Modelled from the spec: `executor_serial.go` is absent from the snapshot
(only `executor_serial_test.go` is present).  Spec section 4.J: scan Pending
and pick the first action whose `CanRun()` is true; if none, stop with the
remaining actions Pending; on success deliver the emitted events via `Signal`;
on error apply the strategy.  Two behaviours are pinned by the in-repository
test rather than the spec prose: under `ContinueOnError` the events returned
by a failed `Run` are still signalled (`TestSerialExecutorErrorStrategy`
"continue on error" requires `Pending = nil` on `A -> !B -> C -> D -> E`,
which is only possible if B's event reaches C). -/
def serialLoop (strategy : ErrorStrategy) : Nat → SState → SState
  | 0, st => st
  | fuel + 1, st =>
    match extractFirstRunnable st.pending with
    | Option.none => st
    | some (a, rest) =>
      let res := testActionRun a
      if res.2 then
        let st1 : SState := { st with pending := rest, errors := st.errors ++ [a] }
        if strategy = ErrorStrategy.stopOnError then st1
        else serialLoop strategy fuel
          { st1 with pending := signalEvents res.1 st1.pending }
      else
        serialLoop strategy fuel
          { st with pending := signalEvents res.1 rest,
                    completed := st.completed ++ [a] }

/-- Modelled from the spec: the serial `Run` drives the loop and reports the
final `Result`.  The returned error is pinned by `TestSerialExecutor` (in the
snapshot): the "two node cycle" and "cycle in larger graph" cases end with
non-empty `Pending` yet expect a nil error, while every case with a non-empty
`Errors` expects a non-nil error — so serial `Run` returns an error iff
`Errors` is non-empty (the spec prose, which claims `ErrPendingActions` on any
non-empty `Pending`, contradicts that test). -/
def serialRun (strategy : ErrorStrategy) (fuel : Nat)
    (actions : List TestAction) : SState × Bool :=
  let st := serialLoop strategy fuel { pending := actions, completed := [], errors := [] }
  (st, st.errors ≠ [])

/-- The test graph `A -> B -> A` (two-node cycle): each action waits for the
event emitted by the other. -/
def cycleActions : List TestAction :=
  [ { name := "A", want := ["B"], received := [], emits := ["A"], fails := false },
    { name := "B", want := ["A"], received := [], emits := ["B"], fails := false } ]

/-- The test graph `A -> !B -> C -> D -> E`: a linear chain where B fails. -/
def chainBFails : List TestAction :=
  [ { name := "A", want := [], received := [], emits := ["A"], fails := false },
    { name := "B", want := ["A"], received := [], emits := ["B"], fails := true },
    { name := "C", want := ["B"], received := [], emits := ["C"], fails := false },
    { name := "D", want := ["C"], received := [], emits := ["D"], fails := false },
    { name := "E", want := ["D"], received := [], emits := ["E"], fails := false } ]

def actionNames (l : List TestAction) : List String := l.map (fun a => a.name)

/-- A step of a structural `api.Path`: pointer dereference, named field,
slice index, or map key (the path type tags of the api package). -/
inductive PathStep where
  | pointer
  | field (name : String)
  | sliceIndex (i : Nat)
  | mapIndex (k : String)
deriving DecidableEq, Repr

/-- A structural path into a resource value. -/
abbrev GoPath := List PathStep

/-- A universe of Go reflect values covering the kinds the inheritance code
touches: scalars, structs (named fields), pointers (possibly nil), slices, and
the distinguished invalid value produced e.g. by `FieldByName` on a missing
field. -/
inductive Val where
  | invalid
  | vInt (n : Int)
  | vStr (s : String)
  | vBool (b : Bool)
  | vStruct (fields : List (String × Val))
  | vPtr (inner : Option Val)
  | vSlice (elems : List Val)

/-- Go reflect kinds used by `setValue`. -/
inductive Kind where
  | kInvalid
  | kInt
  | kString
  | kBool
  | kStruct
  | kPtr
  | kSlice
deriving DecidableEq, Repr

def Val.kind : Val → Kind
  | Val.invalid => Kind.kInvalid
  | Val.vInt _ => Kind.kInt
  | Val.vStr _ => Kind.kString
  | Val.vBool _ => Kind.kBool
  | Val.vStruct _ => Kind.kStruct
  | Val.vPtr _ => Kind.kPtr
  | Val.vSlice _ => Kind.kSlice

def Val.isValid : Val → Bool
  | Val.invalid => false
  | _ => true

mutual

/-- `reflect.Value.IsZero`: zero scalar, nil pointer, struct of all-zero
fields, empty slice. -/
def Val.isZero : Val → Bool
  | Val.invalid => false
  | Val.vInt n => n = 0
  | Val.vStr s => s = ""
  | Val.vBool b => ¬ b
  | Val.vStruct fields => Val.fieldsZero fields
  | Val.vPtr inner => inner.isNone
  | Val.vSlice elems => elems.isEmpty

/-- All field values of a struct are zero. -/
def Val.fieldsZero : List (String × Val) → Bool
  | [] => true
  | f :: rest => Val.isZero f.2 && Val.fieldsZero rest

end

/-- `reflect.Value.FieldByName`: yields the invalid value when the field does
not exist. -/
def Val.fieldByName (v : Val) (name : String) : Val :=
  match v with
  | Val.vStruct fields => (fields.lookup name).getD Val.invalid
  | _ => Val.invalid

/-- Functional update of a named struct field (no-op when missing, matching a
write through an invalid `FieldByName` result that never happens because the
final `Set` is guarded by `isBasicV`). -/
def Val.updateField (v : Val) (name : String) (fv : Val) : Val :=
  match v with
  | Val.vStruct fields =>
    Val.vStruct (fields.map (fun f => if f.1 = name then (f.1, fv) else f))
  | _ => v

/-- `reflect.Value.Elem` on a pointer. -/
def Val.elem : Val → Val
  | Val.vPtr (some inner) => inner
  | _ => Val.invalid

/-- Modelled from the spec: `isBasicV` (api package, absent from the snapshot)
recognises the basic scalar kinds that `setValue` is willing to `Set`
("right now we set only basic type" per the TODO in the source). -/
def isBasicV : Val → Bool
  | Val.vInt _ => true
  | Val.vStr _ => true
  | Val.vBool _ => true
  | _ => false

/-- `api.setValue` (inherit.go): traverse the whole path through the
destination, erroring on invalid values, non-struct field bases, slice or map
steps, and non-pointer dereferences; a nil pointer is skipped with a TODO
(`continue`), leaving the nil pointer as the current value; after the
traversal the resolved destination is overwritten with `from` when (and only
when) it has a basic kind.  The function returns the updated root value. -/
def setValueGo : GoPath → Val → Val → Except String Val
  | [], toV, fromV => Except.ok (if isBasicV toV then fromV else toV)
  | pi :: rest, toV, fromV =>
    if ¬ toV.isValid then Except.error "element is invalid"
    else
      match pi with
      | PathStep.field name =>
        if toV.kind ≠ Kind.kStruct then Except.error "expected struct"
        else
          match setValueGo rest (toV.fieldByName name) fromV with
          | Except.ok fv => Except.ok (toV.updateField name fv)
          | Except.error e => Except.error e
      | PathStep.sliceIndex _ => Except.error "unsupported path type"
      | PathStep.mapIndex _ => Except.error "unsupported path type"
      | PathStep.pointer =>
        if toV.isZero then setValueGo rest toV fromV
        else if toV.kind ≠ Kind.kPtr then Except.error "expected pointer"
        else
          match setValueGo rest toV.elem fromV with
          | Except.ok ev => Except.ok (Val.vPtr (some ev))
          | Except.error e => Except.error e

/-- Modelled from the spec: `Path.ResolveValue` (api package, absent from the
snapshot) resolves a path against a value, "yielding a sub-value or a
structured error" (spec sections 3 and 4.A): fields require a struct with that
field, pointer steps dereference a non-nil pointer, slice indices must be in
range; map values are not populated in this model. -/
def resolveValueGo : GoPath → Val → Except String Val
  | [], v => Except.ok v
  | PathStep.field name :: rest, v =>
    match v with
    | Val.vStruct fields =>
      match fields.lookup name with
      | some fv => resolveValueGo rest fv
      | Option.none => Except.error "field not found"
    | _ => Except.error "expected struct"
  | PathStep.pointer :: rest, v =>
    match v with
    | Val.vPtr (some inner) => resolveValueGo rest inner
    | Val.vPtr Option.none => Except.error "nil pointer"
    | _ => Except.error "expected pointer"
  | PathStep.sliceIndex i :: rest, v =>
    match v with
    | Val.vSlice elems =>
      match elems.get? i with
      | some x => resolveValueGo rest x
      | Option.none => Except.error "index out of range"
    | _ => Except.error "expected slice"
  | PathStep.mapIndex _ :: _, _ => Except.error "map values not modelled"

/-- `api.inheritPath`: resolve the path against `from`, then assign the
resolved value into `to` via `setValue`; either failure is returned to the
caller (`inherit`), which discards it. -/
def inheritPathGo (p : GoPath) (toV fromV : Val) : Except String Val :=
  match resolveValueGo p fromV with
  | Except.ok gotVal => setValueGo p toV gotVal
  | Except.error e => Except.error e

/-- The field-trait roles of the api package (`fType` of a `fieldTrait`). -/
inductive FieldType where
  | ordinary
  | outputOnly
  | inherited
  | allowZeroValue
deriving DecidableEq, Repr

/-- Modelled from the spec: the `FieldTraits` container (api package, absent
from the snapshot); `inherit.go` and the per-type trait tables show it holds a
list of `fieldTrait` records pairing a path with a field role. -/
structure FieldTraitEntry where
  path : GoPath
  fType : FieldType
deriving DecidableEq, Repr

structure FieldTraits where
  fields : List FieldTraitEntry
deriving DecidableEq, Repr

/-- `api.pathsToInherited`: the paths of the entries whose role is
`FieldTypeInherited`, in table order. -/
def pathsToInheritedGo (traits : FieldTraits) : List GoPath :=
  (traits.fields.filter (fun f => f.fType = FieldType.inherited)).map
    (fun f => f.path)

/-- `api.inherit`: run `inheritPath` for every path, discarding each per-path
error (the loop ignores the returned error), and return nil unconditionally.
The first component is the final destination value; the second is the error
`inherit` hands back to its caller. -/
def inheritGo (toV fromV : Val) (paths : List GoPath) : Val × Option String :=
  (paths.foldl
    (fun acc p =>
      match inheritPathGo p acc fromV with
      | Except.ok v => v
      | Except.error _ => acc)
    toV,
   Option.none)

/-- `api.Inherit`: collect the inherited paths; when there are none, return
nil without touching the destination; otherwise run `inherit`. -/
def InheritGo (toV fromV : Val) (trait : FieldTraits) : Val × Option String :=
  let paths := pathsToInheritedGo trait
  if paths.length = 0 then (toV, Option.none)
  else inheritGo toV fromV paths

/-- Node desired states of the rnode package. -/
inductive NodeState where
  | nodeExists
  | nodeDoesNotExist
  | nodeUnknown
  | nodeStateError
deriving DecidableEq, Repr

/-- The desired resource of a target-http-proxy builder (only its presence
matters for the build check; the UrlMap field feeds `OutRefs`). -/
structure THPResource where
  urlMap : String
deriving DecidableEq, Repr

/-- The target-http-proxy `builder`: its staged state and optional desired
resource. -/
structure THPBuilder where
  state : NodeState
  resource : Option THPResource
deriving DecidableEq, Repr

/-- The node produced by a successful `builder.Build`. -/
structure THPNode where
  state : NodeState
  resource : Option THPResource
deriving DecidableEq, Repr

/-- `builder.Build` (targethttpproxy): fail when the state is `NodeExists` and
the resource is nil; otherwise construct the node from the builder.
`InitFromBuilder` (BuilderBase, absent from the snapshot) is modelled from the
spec as copying the builder's metadata into the node without failing. -/
def builderBuild (b : THPBuilder) : Except String THPNode :=
  if b.state = NodeState.nodeExists ∧ b.resource = Option.none then
    Except.error "resource is nil with state Exists"
  else
    Except.ok { state := b.state, resource := b.resource }

/-- Symbolic Go contexts: the caller's context and contexts derived from a
parent with `context.WithTimeout`. -/
inductive Ctx where
  | caller
  | withTimeout (parent : Ctx) (millis : Nat)
deriving DecidableEq, Repr

def Ctx.isTimeoutDerived : Ctx → Bool
  | Ctx.withTimeout _ _ => true
  | Ctx.caller => false

/-- Which context each call of `parallelExecutor.Run` receives: the queue run
gets `subctx := context.WithTimeout(ctx, config.Timeout)`; after `cancel()`,
when the queue returned an error, `WaitForOrphans` is invoked on the caller's
original `ctx` (lines 79-87 of executor_parallel.go). -/
structure CtxFlow where
  pqRunCtx : Ctx
  waitForOrphansCtx : Option Ctx
deriving DecidableEq, Repr

def parallelRunCtxFlow (timeoutMillis : Nat) (queueErrOccurred : Bool) : CtxFlow :=
  { pqRunCtx := Ctx.withTimeout Ctx.caller timeoutMillis,
    waitForOrphansCtx :=
      if queueErrOccurred then some Ctx.caller else Option.none }

/-- A trait table with a single `Inherited` path `*.I` (shape of the tables
built by the per-type `FieldTraits` functions, e.g. `Fingerprint` for
BackendService). -/
def inhTrait : FieldTraits :=
  { fields := [ { path := [PathStep.pointer, PathStep.field "I"],
                  fType := FieldType.inherited } ] }

/-- The same table with an additional `AllowZeroValue` entry on the path. -/
def inhTraitAZ : FieldTraits :=
  { fields := [ { path := [PathStep.pointer, PathStep.field "I"],
                  fType := FieldType.inherited },
                { path := [PathStep.pointer, PathStep.field "I"],
                  fType := FieldType.allowZeroValue } ] }

/-- A trait table whose single inherited path names a field that the observed
value does not have, so that `ResolveValue` fails. -/
def badTrait : FieldTraits :=
  { fields := [ { path := [PathStep.pointer, PathStep.field "Missing"],
                  fType := FieldType.inherited } ] }

/-- A desired value whose inherited field `I` is the non-zero value 5. -/
def desired5 : Val := Val.vPtr (some (Val.vStruct [("I", Val.vInt 5)]))

/-- An observed value whose field `I` is 9. -/
def observed9 : Val := Val.vPtr (some (Val.vStruct [("I", Val.vInt 9)]))

/-- Every action of the list that emits `e` is a failing action (so `e` can
only ever come from an errored `Run`). -/
def emitsOnlyFailing (e : Event) (l : List TestAction) : Prop :=
  ∀ a ∈ l, e ∈ a.emits → a.fails = true

/-- The list holds an action named `nm` waiting on the not-yet-received event
`e` (a downstream action blocked on `e`). -/
def blockedOn (e : Event) (nm : String) (l : List TestAction) : Prop :=
  ∃ a ∈ l, a.name = nm ∧ e ∈ a.want ∧ e ∉ a.received

/-- Invariant of the parallel executor state: `e` is emitted only by failing
actions (pending or queued), and some action named `nm` is pending, blocked on
`e`. -/
def PInv (e : Event) (nm : String) (st : PState) : Prop :=
  emitsOnlyFailing e st.result.pending ∧ emitsOnlyFailing e st.queue ∧
    blockedOn e nm st.result.pending

/-- Invariant of the serial executor state, analogous to `PInv`. -/
def SInv (e : Event) (nm : String) (st : SState) : Prop :=
  emitsOnlyFailing e st.pending ∧ blockedOn e nm st.pending

/-- The failing action B of the chain graphs, after receiving event A. -/
def bAct : TestAction :=
  { name := "B", want := ["A"], received := ["A"], emits := ["B"], fails := true }

/-- The downstream action C, blocked on B's event. -/
def cAct : TestAction :=
  { name := "C", want := ["B"], received := [], emits := ["C"], fails := false }

/-- An executor state whose only pending action is `cAct`. -/
def stC : PState :=
  { result := { completed := [], errors := [], pending := [cAct] }, queue := [] }

/-- The initial executor state of the two-node cycle (nothing runnable). -/
def cycleState : PState :=
  { result := { completed := [], errors := [], pending := cycleActions }, queue := [] }

/-- A result with one errored action, as left behind by a `StopOnError`
failure. -/
def errResult : ExecResult :=
  { completed := [], errors := [bAct], pending := [] }


theorem canRun_false_of_unreceived {a : TestAction} {e : Event}
    (hw : e ∈ a.want) (hr : e ∉ a.received) : canRun a = false := by
  unfold canRun
  rw [List.all_eq_false]
  exact ⟨e, hw, by simpa [List.elem_iff] using hr⟩

theorem signalEvent_name (a : TestAction) (ev : Event) :
    (signalEvent a ev).name = a.name := by
  unfold signalEvent; split <;> rfl

theorem signalEvent_want (a : TestAction) (ev : Event) :
    (signalEvent a ev).want = a.want := by
  unfold signalEvent; split <;> rfl

theorem signalEvent_emits (a : TestAction) (ev : Event) :
    (signalEvent a ev).emits = a.emits := by
  unfold signalEvent; split <;> rfl

theorem signalEvent_fails (a : TestAction) (ev : Event) :
    (signalEvent a ev).fails = a.fails := by
  unfold signalEvent; split <;> rfl

theorem signalEvent_received_not_mem {a : TestAction} {e ev : Event}
    (hr : e ∉ a.received) (hne : e ≠ ev) : e ∉ (signalEvent a ev).received := by
  unfold signalEvent
  split
  · simp only [List.mem_append, List.mem_singleton]
    rintro (h | h)
    · exact hr h
    · exact hne h
  · exact hr

theorem signalBatch_name (evs : List Event) (a : TestAction) :
    (evs.foldl signalEvent a).name = a.name := by
  induction evs generalizing a with
  | nil => rfl
  | cons ev rest ih => simp only [List.foldl_cons, ih, signalEvent_name]

theorem signalBatch_want (evs : List Event) (a : TestAction) :
    (evs.foldl signalEvent a).want = a.want := by
  induction evs generalizing a with
  | nil => rfl
  | cons ev rest ih => simp only [List.foldl_cons, ih, signalEvent_want]

theorem signalBatch_emits (evs : List Event) (a : TestAction) :
    (evs.foldl signalEvent a).emits = a.emits := by
  induction evs generalizing a with
  | nil => rfl
  | cons ev rest ih => simp only [List.foldl_cons, ih, signalEvent_emits]

theorem signalBatch_fails (evs : List Event) (a : TestAction) :
    (evs.foldl signalEvent a).fails = a.fails := by
  induction evs generalizing a with
  | nil => rfl
  | cons ev rest ih => simp only [List.foldl_cons, ih, signalEvent_fails]

theorem signalBatch_received_not_mem {evs : List Event} {a : TestAction} {e : Event}
    (hr : e ∉ a.received) (he : e ∉ evs) : e ∉ (evs.foldl signalEvent a).received := by
  induction evs generalizing a with
  | nil => exact hr
  | cons ev rest ih =>
    simp only [List.mem_cons, not_or] at he
    exact ih (signalEvent_received_not_mem hr he.1) he.2

theorem emitsOnlyFailing_of_sub {e : Event} {l1 l2 : List TestAction}
    (hsub : ∀ b ∈ l2, b ∈ l1) (h : emitsOnlyFailing e l1) : emitsOnlyFailing e l2 :=
  fun a ha => h a (hsub a ha)

theorem emitsOnlyFailing_signalEvents {e : Event} {evs : List Event}
    {l : List TestAction} (h : emitsOnlyFailing e l) :
    emitsOnlyFailing e (signalEvents evs l) := by
  intro b hb hem
  unfold signalEvents at hb
  obtain ⟨a, ha, rfl⟩ := List.mem_map.mp hb
  rw [signalBatch_fails]
  exact h a ha (by rwa [signalBatch_emits] at hem)

theorem blockedOn_signalEvents {e : Event} {nm : String} {evs : List Event}
    {l : List TestAction} (hne : e ∉ evs) (h : blockedOn e nm l) :
    blockedOn e nm (signalEvents evs l) := by
  obtain ⟨a, ha, hnm, hw, hr⟩ := h
  refine ⟨evs.foldl signalEvent a, List.mem_map.mpr ⟨a, ha, rfl⟩, ?_, ?_, ?_⟩
  · rw [signalBatch_name]; exact hnm
  · rw [signalBatch_want]; exact hw
  · exact signalBatch_received_not_mem hr hne

theorem mem_qra_pending {st : PState} {b : TestAction}
    (hb : b ∈ (queueRunnableActions st).result.pending) : b ∈ st.result.pending := by
  simp only [queueRunnableActions] at hb
  split at hb
  · exact hb
  · exact (List.mem_filter.mp hb).1

theorem mem_qra_queue {st : PState} {b : TestAction}
    (hb : b ∈ (queueRunnableActions st).queue) :
    b ∈ st.queue ∨ b ∈ st.result.pending := by
  simp only [queueRunnableActions] at hb
  split at hb
  · exact Or.inl hb
  · rcases List.mem_append.mp hb with h | h
    · exact Or.inl h
    · exact Or.inr (List.mem_filter.mp h).1

theorem blockedOn_qra {e : Event} {nm : String} {st : PState}
    (h : blockedOn e nm st.result.pending) :
    blockedOn e nm (queueRunnableActions st).result.pending := by
  obtain ⟨a, ha, hnm, hw, hr⟩ := h
  simp only [queueRunnableActions]
  split
  · exact ⟨a, ha, hnm, hw, hr⟩
  · refine ⟨a, List.mem_filter.mpr ⟨ha, ?_⟩, hnm, hw, hr⟩
    simp [canRun_false_of_unreceived hw hr]

theorem PInv_qra {e : Event} {nm : String} {st : PState}
    (h : PInv e nm st) : PInv e nm (queueRunnableActions st) := by
  obtain ⟨hp, hq, hb⟩ := h
  refine ⟨emitsOnlyFailing_of_sub (fun b hb2 => mem_qra_pending hb2) hp, ?_, blockedOn_qra hb⟩
  intro b hb2 hem
  rcases mem_qra_queue hb2 with h2 | h2
  · exact hq b h2 hem
  · exact hp b h2 hem

theorem PInv_runActionStep {e : Event} {nm : String} {st : PState}
    {a : TestAction} (strategy : ErrorStrategy)
    (h : PInv e nm st) (ha : e ∈ a.emits → a.fails = true) :
    PInv e nm (runActionStep strategy st a).1 := by
  obtain ⟨hp, hq, hb⟩ := h
  by_cases hf : a.fails
  · have h1 : PInv e nm (addActionResult st a true) := by
      simp only [addActionResult, if_true]
      exact ⟨hp, hq, hb⟩
    simp only [runActionStep, testActionRun, hf, if_true]
    split
    · exact h1
    · exact PInv_qra h1
  · have hne : e ∉ a.emits := fun hmem => hf (ha hmem)
    have hff : a.fails = false := by simpa using hf
    simp only [runActionStep, testActionRun, hff, Bool.false_eq_true, if_false,
      addActionResult]
    exact PInv_qra ⟨emitsOnlyFailing_signalEvents hp, hq, blockedOn_signalEvents hne hb⟩

theorem PInv_pqRun {e : Event} {nm : String} (strategy : ErrorStrategy) :
    ∀ (fuel : Nat) (st : PState), PInv e nm st →
      PInv e nm (pqRun strategy fuel st).1 := by
  intro fuel
  induction fuel with
  | zero => intro st h; exact h
  | succ n ih =>
    rintro ⟨res, q⟩ h
    obtain ⟨hp, hq, hb⟩ := h
    cases q with
    | nil => exact ⟨hp, hq, hb⟩
    | cons a rest =>
      have hrest : emitsOnlyFailing e rest :=
        emitsOnlyFailing_of_sub (fun b h2 => List.mem_cons_of_mem a h2) hq
      have hae : e ∈ a.emits → a.fails = true := hq a (List.mem_cons_self a rest)
      have hstep : PInv e nm
          (runActionStep strategy { result := res, queue := rest } a).1 :=
        PInv_runActionStep strategy ⟨hp, hrest, hb⟩ hae
      simp only [pqRun]
      split
      · exact hstep
      · exact ih _ hstep

theorem PInv_parallelRun {e : Event} {nm : String}
    (strategy : ErrorStrategy) (fuel : Nat) (actions : List TestAction)
    (hfail : emitsOnlyFailing e actions) (hblk : blockedOn e nm actions) :
    blockedOn e nm (parallelRun strategy fuel actions).1.pending := by
  have h0 : PInv e nm { result := { completed := [], errors := [], pending := actions },
                        queue := [] } :=
    ⟨hfail, fun b hb => absurd hb (List.not_mem_nil b), hblk⟩
  have h1 := PInv_pqRun strategy fuel _ (PInv_qra h0)
  exact h1.2.2

theorem efr_canRun : ∀ {l : List TestAction} {a : TestAction}
    {rest : List TestAction},
    extractFirstRunnable l = some (a, rest) → canRun a = true := by
  intro l
  induction l with
  | nil => intro a rest h; simp [extractFirstRunnable] at h
  | cons c tl ih =>
    intro a rest h
    simp only [extractFirstRunnable] at h
    split at h
    · cases h; assumption
    · split at h
      next b l2 heq => cases h; exact ih heq
      next => cases h

theorem efr_mem : ∀ {l : List TestAction} {a : TestAction}
    {rest : List TestAction},
    extractFirstRunnable l = some (a, rest) → a ∈ l := by
  intro l
  induction l with
  | nil => intro a rest h; simp [extractFirstRunnable] at h
  | cons c tl ih =>
    intro a rest h
    simp only [extractFirstRunnable] at h
    split at h
    · cases h; exact List.mem_cons_self _ _
    · split at h
      next b l2 heq => cases h; exact List.mem_cons_of_mem c (ih heq)
      next => cases h

theorem efr_rest_sub : ∀ {l : List TestAction} {a : TestAction}
    {rest : List TestAction},
    extractFirstRunnable l = some (a, rest) → ∀ b ∈ rest, b ∈ l := by
  intro l
  induction l with
  | nil => intro a rest h; simp [extractFirstRunnable] at h
  | cons c tl ih =>
    intro a rest h
    simp only [extractFirstRunnable] at h
    split at h
    · cases h; exact fun b hb => List.mem_cons_of_mem c hb
    · split at h
      next d l2 heq =>
        cases h
        intro b hb
        rcases List.mem_cons.mp hb with rfl | hb2
        · exact List.mem_cons_self _ _
        · exact List.mem_cons_of_mem c (ih heq b hb2)
      next => cases h

theorem efr_keeps_blocked : ∀ {l : List TestAction} {a : TestAction}
    {rest : List TestAction},
    extractFirstRunnable l = some (a, rest) →
      ∀ b ∈ l, canRun b = false → b ∈ rest := by
  intro l
  induction l with
  | nil => intro a rest h; simp [extractFirstRunnable] at h
  | cons c tl ih =>
    intro a rest h
    simp only [extractFirstRunnable] at h
    split at h
    next hc =>
      cases h
      intro b hb hbf
      rcases List.mem_cons.mp hb with rfl | hb2
      · rw [hc] at hbf; cases hbf
      · exact hb2
    next =>
      split at h
      next d l2 heq =>
        cases h
        intro b hb hbf
        rcases List.mem_cons.mp hb with rfl | hb2
        · exact List.mem_cons_self _ _
        · exact List.mem_cons_of_mem c (ih heq b hb2 hbf)
      next => cases h

theorem SInv_serialLoop {e : Event} {nm : String} :
    ∀ (fuel : Nat) (st : SState), SInv e nm st →
      SInv e nm (serialLoop ErrorStrategy.stopOnError fuel st) := by
  intro fuel
  induction fuel with
  | zero => intro st h; exact h
  | succ n ih =>
    intro st h
    obtain ⟨hp, hb⟩ := h
    simp only [serialLoop]
    cases hefr : extractFirstRunnable st.pending with
    | none => exact ⟨hp, hb⟩
    | some pr =>
      obtain ⟨a, rest⟩ := pr
      have hrest : emitsOnlyFailing e rest :=
        emitsOnlyFailing_of_sub (efr_rest_sub hefr) hp
      have hbrest : blockedOn e nm rest := by
        obtain ⟨b, hbmem, hnm, hw, hr⟩ := hb
        exact ⟨b, efr_keeps_blocked hefr b hbmem (canRun_false_of_unreceived hw hr),
          hnm, hw, hr⟩
      by_cases hf : a.fails
      · simp only [testActionRun, hf, if_true]
        exact ⟨hrest, hbrest⟩
      · have hne : e ∉ a.emits := fun hmem => hf (hp a (efr_mem hefr) hmem)
        have hff : a.fails = false := by simpa using hf
        simp only [testActionRun, hff, Bool.false_eq_true, if_false]
        exact ih _ ⟨emitsOnlyFailing_signalEvents hrest,
          blockedOn_signalEvents hne hbrest⟩

theorem SInv_serialRun {e : Event} {nm : String} (fuel : Nat)
    (actions : List TestAction)
    (hfail : emitsOnlyFailing e actions) (hblk : blockedOn e nm actions) :
    blockedOn e nm (serialRun ErrorStrategy.stopOnError fuel actions).1.pending := by
  exact (SInv_serialLoop fuel { pending := actions, completed := [], errors := [] }
    ⟨hfail, hblk⟩).2

/-- C1.  Amended: for every run of the parallel executor in which
`WaitForOrphans` is not invoked (no queue error) or returns nil, `Run` returns
the sentinel `ErrPendingActions` iff the final `Result` has at least one entry
in `Errors` or at least one entry in `Pending`.  (When `WaitForOrphans` itself
fails, `Run` instead returns the wrapped wait error — see the
counterexample.) -/
theorem c1_run_error_iff (queueErr : Bool) (waitErr : Option String)
    (res : ExecResult) (h : queueErr = false ∨ waitErr = Option.none) :
    (runReturn queueErr waitErr res = RunError.errPendingActions ↔
      res.errors ≠ [] ∨ res.pending ≠ []) := by
  have key : ∀ r : ExecResult,
      ((if r.errors ≠ [] ∨ r.pending ≠ [] then RunError.errPendingActions
        else RunError.none) = RunError.errPendingActions ↔
        r.errors ≠ [] ∨ r.pending ≠ []) := by
    intro r
    split
    next hc => simpa using hc
    next hc => simpa using hc
  rcases h with rfl | rfl
  · simpa only [runReturn, Bool.false_eq_true, if_false] using key res
  · cases queueErr
    · simpa only [runReturn, Bool.false_eq_true, if_false] using key res
    · simpa only [runReturn, if_true] using key res

/-- C1 witness: the amended equivalence evaluated after a queue error with a
nil `WaitForOrphans` result and one errored action. -/
theorem c1_witness :
    ((true : Bool) = false ∨ (Option.none : Option String) = Option.none) ∧
      (runReturn true Option.none errResult = RunError.errPendingActions ↔
        errResult.errors ≠ [] ∨ errResult.pending ≠ []) :=
  ⟨Or.inr rfl, c1_run_error_iff true Option.none errResult (Or.inr rfl)⟩

/-- C1 counterexample: when the queue errored and `WaitForOrphans` fails too,
`Run` returns the wrapped wait error — not `ErrPendingActions` — even though
`Errors` is non-empty, so the claimed equivalence does not "still hold" in
that case. -/
theorem c1_counterexample :
    runReturn true (some "context deadline exceeded") errResult
        = RunError.waitForOrphansWrapped "context deadline exceeded"
      ∧ errResult.errors ≠ []
      ∧ RunError.waitForOrphansWrapped "context deadline exceeded"
          ≠ RunError.errPendingActions := by
  refine ⟨rfl, by decide, by decide⟩

/-- C2.  Amended: `Inherit` copies an `Inherited` path from the observed value
into the desired value unconditionally whenever the destination resolves to a
basic-kind value — a non-zero desired value is overwritten, and an
`AllowZeroValue` entry for the path makes no difference (the zero check exists
only as logging and the TODOs in `setValue`). -/
theorem c2_inherit_overwrites (x y : Int) :
    (InheritGo (Val.vPtr (some (Val.vStruct [("I", Val.vInt x)])))
        (Val.vPtr (some (Val.vStruct [("I", Val.vInt y)]))) inhTrait).1
      = Val.vPtr (some (Val.vStruct [("I", Val.vInt y)]))
    ∧ (InheritGo (Val.vPtr (some (Val.vStruct [("I", Val.vInt x)])))
        (Val.vPtr (some (Val.vStruct [("I", Val.vInt y)]))) inhTraitAZ).1
      = Val.vPtr (some (Val.vStruct [("I", Val.vInt y)])) :=
  ⟨rfl, rfl⟩

/-- C2 counterexample: the desired value at the `Inherited` path `*.I` is the
non-zero 5 and `AllowZeroValue` is not set, yet `Inherit` replaces it with the
observed 9 instead of leaving it unchanged. -/
theorem c2_counterexample :
    resolveValueGo [PathStep.pointer, PathStep.field "I"]
        (InheritGo desired5 observed9 inhTrait).1 = Except.ok (Val.vInt 9)
    ∧ resolveValueGo [PathStep.pointer, PathStep.field "I"] desired5
        = Except.ok (Val.vInt 5)
    ∧ Val.isZero (Val.vInt 5) = false
    ∧ inhTrait.fields.all (fun f => f.fType ≠ FieldType.allowZeroValue) = true
    ∧ (9 : Int) ≠ 5 := by
  refine ⟨rfl, rfl, rfl, by decide, by decide⟩

/-- C3.  Amended: for the two-node cycle `A -> B -> A` the parallel executor
returns `ErrPendingActions` with `Pending = {A, B}`; the serial executor also
ends with `Pending = {A, B}` but returns a nil error (its `Run` reports an
error only when `Errors` is non-empty, as its own test requires). -/
theorem c3_cycle_behavior :
    (parallelRun ErrorStrategy.stopOnError 20 cycleActions).2
        = RunError.errPendingActions
    ∧ actionNames (parallelRun ErrorStrategy.stopOnError 20 cycleActions).1.pending
        = ["A", "B"]
    ∧ actionNames (serialRun ErrorStrategy.stopOnError 20 cycleActions).1.pending
        = ["A", "B"]
    ∧ (serialRun ErrorStrategy.stopOnError 20 cycleActions).2 = false := by
  refine ⟨by decide, by decide, by decide, by decide⟩

/-- C3 counterexample: on the two-node cycle the serial executor returns no
error at all (false = nil error), contradicting the claim that both executors
return the non-nil `ErrPendingActions`; this matches `TestSerialExecutor`,
whose "two node cycle" case omits `wantErr`. -/
theorem c3_counterexample :
    (serialRun ErrorStrategy.stopOnError 20 cycleActions).2 = false
    ∧ actionNames (serialRun ErrorStrategy.stopOnError 20 cycleActions).1.pending
        = ["A", "B"]
    ∧ (serialRun ErrorStrategy.stopOnError 20 cycleActions).1.errors = [] := by
  refine ⟨by decide, by decide, by decide⟩

/-- C4.  Amended: in every run in which all emitters of an event `e` are
failing actions, a downstream action blocked on `e` remains in
`Result.Pending` at the end of the run — for the parallel executor under both
error strategies, and for the serial executor under `StopOnError`.  (Under the
serial executor with `ContinueOnError` the failed action's events are still
signalled, so such downstream actions run — see the counterexample.) -/
theorem c4_downstream_pending (e : Event) (nm : String)
    (actions : List TestAction)
    (hfail : emitsOnlyFailing e actions) (hblk : blockedOn e nm actions) :
    (∀ (strategy : ErrorStrategy) (fuel : Nat),
        blockedOn e nm (parallelRun strategy fuel actions).1.pending)
    ∧ (∀ fuel : Nat,
        blockedOn e nm (serialRun ErrorStrategy.stopOnError fuel actions).1.pending) :=
  ⟨fun strategy fuel => PInv_parallelRun strategy fuel actions hfail hblk,
   fun fuel => SInv_serialRun fuel actions hfail hblk⟩

/-- C4 witness: on `A -> !B -> C -> D -> E`, action C (blocked on B's event)
stays pending in the parallel run under `ContinueOnError` and in the serial run
under `StopOnError`. -/
theorem c4_witness :
    emitsOnlyFailing "B" chainBFails ∧ blockedOn "B" "C" chainBFails
    ∧ blockedOn "B" "C"
        (parallelRun ErrorStrategy.continueOnError 20 chainBFails).1.pending
    ∧ blockedOn "B" "C"
        (serialRun ErrorStrategy.stopOnError 20 chainBFails).1.pending := by
  have hf : emitsOnlyFailing "B" chainBFails := by unfold emitsOnlyFailing; decide
  have hb : blockedOn "B" "C" chainBFails := by unfold blockedOn; decide
  exact ⟨hf, hb,
    (c4_downstream_pending "B" "C" chainBFails hf hb).1 ErrorStrategy.continueOnError 20,
    (c4_downstream_pending "B" "C" chainBFails hf hb).2 20⟩

/-- C4 counterexample: the serial executor under `ContinueOnError` on
`A -> !B -> C -> D -> E` ends with empty `Pending`: C, D and E — downstream
actions whose wanted events are emitted only by the failed B — completed
instead of remaining pending (matching `TestSerialExecutorErrorStrategy`). -/
theorem c4_counterexample :
    (serialRun ErrorStrategy.continueOnError 20 chainBFails).1.pending = []
    ∧ actionNames (serialRun ErrorStrategy.continueOnError 20 chainBFails).1.errors
        = ["B"]
    ∧ actionNames (serialRun ErrorStrategy.continueOnError 20 chainBFails).1.completed
        = ["A", "C", "D", "E"] := by
  refine ⟨by decide, by decide, by decide⟩

/-- C5.  Amended: when the queue run of the parallel executor ends with an
error, `WaitForOrphans` is invoked on the caller's original context — not on
the (already cancelled) work-phase timeout sub-context, and not on any context
derived with a `WaitForOrphansTimeout` duration — so drainage is bounded only
by the caller's context. -/
theorem c5_wait_ctx (t : Nat) :
    parallelRunCtxFlow t true
        = { pqRunCtx := Ctx.withTimeout Ctx.caller t,
            waitForOrphansCtx := some Ctx.caller }
    ∧ Ctx.isTimeoutDerived Ctx.caller = false
    ∧ parallelRunCtxFlow t false
        = { pqRunCtx := Ctx.withTimeout Ctx.caller t,
            waitForOrphansCtx := Option.none } :=
  ⟨rfl, rfl, rfl⟩

/-- C5 counterexample: with the default 5-minute timeout and an erroring queue
run, the context handed to `WaitForOrphans` is the caller's context, which is
not derived from any timeout — refuting "a fresh context derived with the
WaitForOrphansTimeout duration". -/
theorem c5_counterexample :
    (parallelRunCtxFlow 300000 true).waitForOrphansCtx = some Ctx.caller
    ∧ Option.map Ctx.isTimeoutDerived
        (parallelRunCtxFlow 300000 true).waitForOrphansCtx = some false := by
  refine ⟨rfl, rfl⟩

/-- C6.  In the parallel executor's `runAction`, events are delivered via
`Signal` only in the success branch: when the action's `Run` fails, every
pending action afterwards is an unmodified record of the prior pending list
(no event was signalled to it); when `Run` succeeds, every pending action
afterwards comes from the prior pending list with exactly the action's emitted
events delivered. -/
theorem c6_signal_only_on_success (strategy : ErrorStrategy) (st : PState)
    (a : TestAction) :
    (a.fails = true →
      ∀ b ∈ (runActionStep strategy st a).1.result.pending, b ∈ st.result.pending)
    ∧ (a.fails = false →
      ∀ b ∈ (runActionStep strategy st a).1.result.pending,
        b ∈ signalEvents a.emits st.result.pending) := by
  constructor
  · intro hf b hb
    simp only [runActionStep, testActionRun, hf, if_true] at hb
    split at hb
    · simpa [addActionResult] using hb
    · have h2 := mem_qra_pending hb
      simpa [addActionResult] using h2
  · intro hf b hb
    simp only [runActionStep, testActionRun, hf, Bool.false_eq_true, if_false] at hb
    have h2 := mem_qra_pending hb
    simpa [addActionResult] using h2

/-- C6 witness: running the failing action B against a state whose pending
action is C leaves C's record untouched. -/
theorem c6_witness :
    bAct.fails = true ∧
      ∀ b ∈ (runActionStep ErrorStrategy.stopOnError stC bAct).1.result.pending,
        b ∈ stC.result.pending :=
  ⟨rfl, (c6_signal_only_on_success ErrorStrategy.stopOnError stC bAct).1 rfl⟩

/-- C7.  For `A -> !B -> C -> D -> E` under `StopOnError`, both executors end
with `Completed = {A}`, `Errors = {B}`, `Pending = {C, D, E}` and a non-nil
returned error (for the parallel executor, `ErrPendingActions`). -/
theorem c7_chain_stop_on_error :
    actionNames (serialRun ErrorStrategy.stopOnError 20 chainBFails).1.completed = ["A"]
    ∧ actionNames (serialRun ErrorStrategy.stopOnError 20 chainBFails).1.errors = ["B"]
    ∧ actionNames (serialRun ErrorStrategy.stopOnError 20 chainBFails).1.pending
        = ["C", "D", "E"]
    ∧ (serialRun ErrorStrategy.stopOnError 20 chainBFails).2 = true
    ∧ actionNames (parallelRun ErrorStrategy.stopOnError 20 chainBFails).1.completed
        = ["A"]
    ∧ actionNames (parallelRun ErrorStrategy.stopOnError 20 chainBFails).1.errors
        = ["B"]
    ∧ actionNames (parallelRun ErrorStrategy.stopOnError 20 chainBFails).1.pending
        = ["C", "D", "E"]
    ∧ (parallelRun ErrorStrategy.stopOnError 20 chainBFails).2
        = RunError.errPendingActions := by
  refine ⟨by decide, by decide, by decide, by decide, by decide, by decide,
    by decide, by decide⟩

/-- C8.  The target-http-proxy `builder.Build` fails when the state is
`NodeExists` and the desired resource is nil, and consequently every node a
successful `Build` produces with state `NodeExists` carries a non-nil desired
resource. -/
theorem c8_build_requires_resource (b : THPBuilder) :
    (b.state = NodeState.nodeExists → b.resource = Option.none →
      builderBuild b = Except.error "resource is nil with state Exists")
    ∧ (∀ n : THPNode, builderBuild b = Except.ok n →
        b.state = NodeState.nodeExists → n.resource ≠ Option.none) := by
  constructor
  · intro hs hr
    simp [builderBuild, hs, hr]
  · intro n hok hs hnone
    unfold builderBuild at hok
    split at hok
    · cases hok
    · next hcond =>
      cases hok
      exact hcond ⟨hs, hnone⟩

/-- C8 witness: the builder with state `NodeExists` and no resource fails to
build. -/
theorem c8_witness :
    builderBuild { state := NodeState.nodeExists, resource := Option.none }
      = Except.error "resource is nil with state Exists" :=
  (c8_build_requires_resource
    { state := NodeState.nodeExists, resource := Option.none }).1 rfl rfl

/-- C9.  `Inherit` always returns nil: the `inherit` loop discards every
per-path error from `inheritPath`, as witnessed by a table whose single
inherited path fails to resolve against the observed value yet yields a nil
error and an unchanged destination. -/
theorem c9_inherit_swallows_errors :
    (∀ (toV fromV : Val) (trait : FieldTraits),
      (InheritGo toV fromV trait).2 = Option.none)
    ∧ inheritPathGo [PathStep.pointer, PathStep.field "Missing"] desired5 observed9
        = Except.error "field not found"
    ∧ InheritGo desired5 observed9 badTrait = (desired5, Option.none) := by
  refine ⟨?_, rfl, rfl⟩
  intro toV fromV trait
  simp only [InheritGo]
  split
  · rfl
  · rfl

/-- C10.  `queueRunnableActions` leaves `Result.Pending` exactly unchanged
when no pending action satisfies `CanRun`, and rewrites it to the non-runnable
remainder (queueing the runnable actions, in order) exactly when at least one
pending action is runnable. -/
theorem c10_queue_runnable_frame (st : PState) :
    ((∀ a ∈ st.result.pending, canRun a = false) → queueRunnableActions st = st)
    ∧ ((∃ a ∈ st.result.pending, canRun a = true) →
        (queueRunnableActions st).result.pending
            = st.result.pending.filter (fun a => ¬ canRun a)
        ∧ (queueRunnableActions st).queue
            = st.queue ++ st.result.pending.filter (fun a => canRun a)) := by
  constructor
  · intro hnone
    have hemp : (st.result.pending.filter (fun a => canRun a)).isEmpty = true := by
      rw [List.isEmpty_iff, List.filter_eq_nil_iff]
      intro a ha
      simp [hnone a ha]
    simp only [queueRunnableActions, hemp, if_true]
  · rintro ⟨a, ha, hc⟩
    have hne : (st.result.pending.filter (fun a => canRun a)).isEmpty = false := by
      rw [List.isEmpty_eq_false_iff_exists_mem]
      exact ⟨a, List.mem_filter.mpr ⟨ha, hc⟩⟩
    simp only [queueRunnableActions, hne, Bool.false_eq_true, if_false]
    refine ⟨?_, ?_⟩ <;> first | rfl | trivial

/-- C10 witness: on the cycle's initial state (nothing runnable) the state is
returned untouched. -/
theorem c10_witness :
    (∀ a ∈ cycleState.result.pending, canRun a = false) ∧
      queueRunnableActions cycleState = cycleState := by
  have h : ∀ a ∈ cycleState.result.pending, canRun a = false := by decide
  exact ⟨h, (c10_queue_runnable_frame cycleState).1 h⟩
